import Mathlib

/-!
Shallow embedding of the perturbation-theory solver core of
`Psience/VPT2/Solver.py` (classes `DegenerateMultiStateSpace`,
`PerturbationTheoryCorrections`, `PerturbationTheorySolver`).

Machine floats are modelled by exact rationals; sparse arrays over the flat
total state space of dimension `N` are modelled by total functions
`Fin N → ℚ` (vectors) and `Fin N → Fin N → ℚ` (matrices).  A perturbation
entry that Python holds as the literal scalar `0` (an absent order, or the
value `PastIndexableTuple` returns past the end) is modelled by `none` in
`Option`-valued operator slots.  Fatal `raise` paths are modelled with
`Except`.
-/

-- The Batteries rational primitives are sealed; re-open them so that the
-- concrete scenario theorems can be settled by kernel evaluation.
attribute [local semireducible] Rat.add Rat.mul Rat.inv Rat.sub Rat.ofScientific

deriving instance DecidableEq for Except

namespace Psience

abbrev Vec (N : ℕ) := Fin N → ℚ
abbrev Mat (N : ℕ) := Fin N → Fin N → ℚ

/-- An entry of the perturbation tuple: `none` models the Python scalar `0`
(an absent perturbation order), `some M` a materialized representation
matrix. -/
abbrev OpMat (N : ℕ) := Option (Mat N)

/-- A dynamically-typed numpy value as flowing through
`PerturbationTheorySolver._safe_dot`: a scalar, a vector, or a matrix. -/
inductive Val (N : ℕ) where
  | sc : ℚ → Val N
  | vec : Vec N → Val N
  | mat : Mat N → Val N
deriving DecidableEq

/-- The `isinstance(a, (int, np.integer, float, np.floating)) and a == 0`
test of `_safe_dot`. -/
def Val.isZeroScalar {N : ℕ} : Val N → Bool
  | .sc q => q == 0
  | _ => false

/-- Embeds `PerturbationTheorySolver._safe_dot` (Solver.py:1923-1940): the dot
product generalized so that the literal scalar `0` short-circuits to the
scalar `0`.  Shape combinations on which the Python code would crash
(e.g. a nonzero bare scalar, which has no `.dot`) are mapped to `none`. -/
def safe_dot {N : ℕ} (a b : Val N) : Option (Val N) :=
  if a.isZeroScalar || b.isZeroScalar then some (.sc 0)
  else
    match a, b with
    | .vec u, .vec v => some (.sc (∑ j, u j * v j))
    | .vec u, .mat M => some (.vec (fun j => ∑ i, u i * M i j))
    | .mat M, .vec v => some (.vec (fun i => ∑ j, M i j * v j))
    | .mat A, .mat B => some (.mat (fun i k => ∑ j, A i j * B j k))
    | _, _ => none

/-- Embeds `PerturbationTheorySolver.PastIndexableTuple.__getitem__`
(Solver.py:638-643): integer indexing past the end of the tuple returns the
scalar `0` instead of raising `IndexError`. -/
def pastIndexableGet {N : ℕ} (t : List (Val N)) (i : ℕ) : Val N :=
  if h : i < t.length then t.get ⟨i, h⟩ else .sc 0

/-- The same past-the-end indexing, specialized to the solver's tuple of
perturbation representations (`self.representations`), where the scalar `0`
is modelled by `none`. -/
def pastIndexGet {N : ℕ} (t : List (OpMat N)) (i : ℕ) : OpMat N :=
  if h : i < t.length then t.get ⟨i, h⟩ else none

/-- Embeds `np.average` of a list of rationals. -/
def listMean (l : List ℚ) : ℚ := l.sum / l.length

/-- The square of `np.std` (population variance); the standard deviation
itself is the square root of this, which is in general irrational, so the
error payload carries the variance as its exact representative. -/
def listVar (l : List ℚ) : ℚ :=
  (l.map (fun x => (x - listMean l) ^ 2)).sum / l.length

/-- Payload of the `ValueError("degeneracies encountered: ...")` raised by
`_get_Pi0` (Solver.py:840-857).  The formatted message names the degenerate
subspace, then either the offending indices themselves (when there are at
most 10 of them) or only their count, and the average and standard
deviation of `bad_vec = np.concatenate([[E0], e_vec_full[zero_checks]])`. -/
structure DegeneracyEncountered (N : ℕ) where
  subspace : Finset (Fin N)
  namedStates : Option (List (Fin N))
  count : ℕ
  mean : ℚ
  variance : ℚ
deriving DecidableEq

/-- Embeds `PerturbationTheorySolver._get_Pi0` (Solver.py:829-860): builds the
diagonal resolvent for the degenerate subspace `deg`, shifting the full
zero-order energy vector by `E0`, overwriting the in-group entries with `1`,
raising if any entry of the shifted vector falls below `cutoff` in absolute
value, and otherwise returning `1/e_vec` with the in-group entries zeroed. -/
def get_Pi0 {N : ℕ} (e_vec_full : Vec N) (deg : Finset (Fin N))
    (E0 : ℚ) (cutoff : ℚ) : Except (DegeneracyEncountered N) (Vec N) :=
  let e_vec : Vec N := fun m => if m ∈ deg then 1 else e_vec_full m - E0
  let zero_checks : List (Fin N) :=
    (List.finRange N).filter (fun m => |e_vec m| < cutoff)
  if zero_checks.length > 0 then
    let bad_vec : List ℚ := E0 :: zero_checks.map e_vec_full
    .error
      { subspace := deg
        namedStates := if zero_checks.length > 10 then none else some zero_checks
        count := zero_checks.length
        mean := listMean bad_vec
        variance := listVar bad_vec }
  else
    .ok (fun m => if m ∈ deg then 0 else 1 / e_vec m)

/-- Embeds `takeDiag = lambda h, n_ind: h[n_ind, n_ind] if not isinstance(h, …) else 0.`
(Solver.py:2056), on an operator slot whose scalar case is the literal 0. -/
def takeDiag {N : ℕ} (h : OpMat N) (n : Fin N) : ℚ :=
  match h with
  | none => 0
  | some M => M n n

/-- Embeds `dot(take(H[j], n_ind), corrs[i])` (Solver.py:2057, 2072): row
extraction followed by `_safe_dot`; the scalar-`0` row short-circuits. -/
def takeRowDot {N : ℕ} (h : OpMat N) (n : Fin N) (v : Vec N) : ℚ :=
  match h with
  | none => 0
  | some M => ∑ j, M n j * v j

/-- Embeds `dot(H[j], corrs[i])` (Solver.py:2099, 2101): matrix-vector product by
`_safe_dot`, where the scalar `0` behaves as the zero vector downstream
(numpy broadcasting in `energies[k-i]*corrs[i] - 0` and in the row
assignment). -/
def hamApply {N : ℕ} (h : OpMat N) (v : Vec N) : Vec N :=
  match h with
  | none => fun _ => 0
  | some M => fun i => ∑ j, M i j * v j

/-- Plain dot product `dot(corrs[i], corrs[k-i])` of two dense vectors. -/
def dotVec {N : ℕ} (u v : Vec N) : ℚ := ∑ j, u j * v j

/-- The fatal conditions of `apply_VPT_nondeg_equations`. -/
inductive PTError (N : ℕ) where
  /-- The `ValueError` from `_get_Pi0` before any correction is produced. -/
  | degeneracyEncountered : DegeneracyEncountered N → PTError N
  /-- The `ValueError("Perturbation operator should have made overlap of state
  {} with {} zero...")` (Solver.py:2108), tagged with state and order. -/
  | overlapFailure : Fin N → ℕ → PTError N
  /-- The `ValueError("state ... isn't normalized")` (Solver.py:2130), tagged
  with the state and the offending total overlap. -/
  | normalizationFailure : Fin N → ℚ → PTError N
deriving DecidableEq

/-- The per-state accumulation arrays `energies`, `overlaps`, `corrs` of
`apply_VPT_nondeg_equations`; after processing order `k` each list has
length `k+1`, entry `j` holding the order-`j` value. -/
structure PTRun (N : ℕ) where
  energies : List ℚ
  overlaps : List ℚ
  corrs : List (Vec N)
deriving DecidableEq

/-- Embeds `(should_be_zero > 0).any()` (Solver.py:2106-2107): the in-group
coefficients trigger the error only when one of them is strictly
positive. -/
def overlapCheckAny {N : ℕ} (deg : Finset (Fin N)) (v : Vec N) : Bool :=
  decide (∃ m ∈ deg, 0 < v m)

/-- The raw order-`k` wavefunction correction `corrs[k]` (Solver.py:2098-2103)
before the overlap check and the normalization write-in:
`sum(dot(pi, energies[k-i]*corrs[i] - dot(H[k-i], corrs[i]))` when
`abs(energies[k-i]) > non_zero_cutoff`, else `-dot(pi, dot(H[k-i], corrs[i]))`,
over `i = 0..k-1`.  `E` must already contain the freshly written order-`k`
energy (line 2095 executes before line 2098). -/
def rawCorrVec {N : ℕ} (pi : Vec N) (HH : ℕ → OpMat N) (cutoff : ℚ)
    (E : ℕ → ℚ) (c : ℕ → Vec N) (k : ℕ) : Vec N :=
  fun m =>
    ∑ i ∈ Finset.range k,
      if cutoff < |E (k - i)| then
        pi m * (E (k - i) * c i m - hamApply (HH (k - i)) (c i) m)
      else
        -(pi m * hamApply (HH (k - i)) (c i) m)

/-- The order-`k` energy `Ek` (Solver.py:2060-2094):
`takeDiag(H[k], n) + Σ_{i=1}^{k-1} (dot(take(H[k-i]), n), corrs[i]) -
energies[k-i]*overlaps[i])`, forced to `0` at odd `k` when
`ignore_odd_orders` is set. -/
def energyAtOrder {N : ℕ} (HH : ℕ → OpMat N) (n : Fin N)
    (ignoreOddOrders : Bool) (E ov : ℕ → ℚ) (c : ℕ → Vec N) (k : ℕ) : ℚ :=
  if ignoreOddOrders ∧ k % 2 = 1 then 0
  else
    takeDiag (HH k) n +
      ∑ i ∈ Finset.Ico 1 k, (takeRowDot (HH (k - i)) n (c i) - E (k - i) * ov i)

/-- The order-`k` overlap `ok = -1/2 sum(dot(corrs[i], corrs[k-i]),
i=1..k-1)` (Solver.py:2112-2115), forced to `0` under intermediate
normalization. -/
def overlapAtOrder {N : ℕ} (inorm : Bool) (c : ℕ → Vec N) (k : ℕ) : ℚ :=
  if inorm then 0
  else (-1 / 2 : ℚ) * ∑ i ∈ Finset.Ico 1 k, dotVec (c i) (c (k - i))

/-- One iteration of the order loop of `apply_VPT_nondeg_equations`
(Solver.py:2058-2122) at order `k`, appending the new entries to the
accumulation arrays. -/
def nondegStep {N : ℕ} (HH : ℕ → OpMat N) (pi : Vec N) (n : Fin N)
    (deg : Finset (Fin N)) (cutoff : ℚ)
    (checkOverlap intermediateNormalization ignoreOddOrders : Bool)
    (st : PTRun N) (k : ℕ) : Except (PTError N) (PTRun N) :=
  let E := fun j => st.energies.getD j 0
  let ov := fun j => st.overlaps.getD j 0
  let c := fun j => st.corrs.getD j (fun _ => 0)
  let Ek : ℚ := energyAtOrder HH n ignoreOddOrders E ov c k
  -- `energies[k] = Ek` is written before `corrs[k]` is computed, so the
  -- `i = 0` wavefunction term reads the freshly stored order-`k` energy
  let E' := fun j => if j = k then Ek else E j
  let ck0 : Vec N := rawCorrVec pi HH cutoff E' c k
  if checkOverlap ∧ overlapCheckAny deg ck0 then
    .error (.overlapFailure n k)
  else
    let ok : ℚ := overlapAtOrder intermediateNormalization c k
    let ck : Vec N := fun m => if m = n then ok else ck0 m
    .ok ⟨st.energies ++ [Ek], st.overlaps ++ [ok], st.corrs ++ [ck]⟩

/-- Folds the order loop over the given list of orders, propagating the
first fatal error. -/
def runSteps {N : ℕ} (f : PTRun N → ℕ → Except (PTError N) (PTRun N)) :
    List ℕ → PTRun N → Except (PTError N) (PTRun N)
  | [], st => .ok st
  | k :: ks, st =>
    match f st k with
    | .error e => .error e
    | .ok st' => runSteps f ks st'

/-- The final cumulative overlap
`ov = Σ_{k=0}^{order} Σ_{i=0}^{k} dot(corrs[k-i], corrs[i])`
(Solver.py:2127-2128). -/
def cumulativeNorm {N : ℕ} (corrs : List (Vec N)) (order : ℕ) : ℚ :=
  ∑ k ∈ Finset.range (order + 1), ∑ i ∈ Finset.range (k + 1),
    dotVec (corrs.getD (k - i) (fun _ => 0)) (corrs.getD i (fun _ => 0))

/-- Embeds `PerturbationTheorySolver.zero_order_energies` (Solver.py:660-668):
the diagonal of the `H0` representation. -/
def zero_order_energies {N : ℕ} (H0 : Mat N) : Vec N := fun i => H0 i i

/-- The degenerate index set used by the engine (Solver.py:2036-2041):
the indices of the supplied degenerate group, or the singleton
`deg_inds = (n_ind,)` when `deg_group is None`. -/
def degIndsOf {N : ℕ} (degGroup : Option (Finset (Fin N))) (n : Fin N) :
    Finset (Fin N) :=
  match degGroup with
  | none => {n}
  | some D => D

/-- The order-0 contents of the accumulation arrays (Solver.py:2047-2052):
energy `E0`, overlap `1`, wavefunction the unit vector at `n`. -/
def initRun {N : ℕ} (E0 : ℚ) (n : Fin N) : PTRun N :=
  ⟨[E0], [1], [fun m => if m = n then 1 else 0]⟩

/-- Embeds `PerturbationTheorySolver.apply_VPT_nondeg_equations`
(Solver.py:1993-2135).  `H0` is the zero-order representation (entry 0 of
the `PastIndexableTuple` of representations), `Hrest` the remaining entries
(`H[1]`, `H[2]`, …); past-the-end access yields the scalar 0 (`none`).
`degGroup = none` models `deg_group is None`, in which case
`deg_inds = (n_ind,)`.  Returns the `(energies, overlaps, corrs)` triple or
the first fatal error. -/
def apply_VPT_nondeg_equations {N : ℕ} (H0 : Mat N) (Hrest : List (OpMat N))
    (order : ℕ) (n : Fin N) (degGroup : Option (Finset (Fin N)))
    (cutoff : ℚ) (checkOverlapArg intermediateNormalization ignoreOddOrders : Bool) :
    Except (PTError N) (PTRun N) :=
  let checkOverlap := if intermediateNormalization then false else checkOverlapArg
  let e_vec_full := zero_order_energies H0
  let HH : ℕ → OpMat N := pastIndexGet (some H0 :: Hrest)
  let deg_inds := degIndsOf degGroup n
  let E0 := e_vec_full n
  match get_Pi0 e_vec_full deg_inds E0 cutoff with
  | .error e => .error (.degeneracyEncountered e)
  | .ok pi =>
    match runSteps
        (nondegStep HH pi n deg_inds cutoff checkOverlap
          intermediateNormalization ignoreOddOrders)
        (List.range' 1 order) (initRun E0 n) with
    | .error e => .error e
    | .ok st =>
      if checkOverlap then
        let ov := cumulativeNorm st.corrs order
        if 1 / 200 < |ov - 1| then .error (.normalizationFailure n ov)
        else .ok st
      else .ok st

/-- One iteration of `_group_states_by_energy_cutoff` (Solver.py:209-219):
if state `n` is not yet contained in one of the accumulated groups, append
`{m | |energies[m] - energies[n]| < cutoff}` — all states within the
cutoff, with no exclusion of states already assigned to earlier groups. -/
def energy_cutoff_step {S : ℕ} (energies : Fin S → ℚ) (cutoff : ℚ)
    (degenerate_groups : List (Finset (Fin S))) (n : Fin S) :
    List (Finset (Fin S)) :=
  if ∀ d ∈ degenerate_groups, n ∉ d then
    degenerate_groups ++
      [Finset.univ.filter (fun m => |energies m - energies n| < cutoff)]
  else degenerate_groups

/-- Embeds `DegenerateMultiStateSpace._group_states_by_energy_cutoff`
(Solver.py:193-222): walks the states in ascending order, applying
`energy_cutoff_step` to each. -/
def group_states_by_energy_cutoff {S : ℕ} (energies : Fin S → ℚ)
    (cutoff : ℚ) : List (Finset (Fin S)) :=
  (List.finRange S).foldl (energy_cutoff_step energies cutoff) []

/-- One iteration of the group-assembly loop of
`DegenerateMultiStateSpace.from_spec` (Solver.py:170-178): the state `x` is
appended to the bucket of the first degenerate set containing it, or opens
a fresh singleton bucket when no set contains it. -/
def from_spec_step {S : ℕ} (deg_sets : List (Finset (Fin S)))
    (groups : List (List (Fin S))) (x : Fin S) : List (List (Fin S)) :=
  match deg_sets.findIdx? (fun d => x ∈ d) with
  | some i => groups.set i (groups.getD i [] ++ [x])
  | none => groups ++ [[x]]

/-- The group-assembly loop of `DegenerateMultiStateSpace.from_spec`
(Solver.py:164-191): starting from one empty bucket per degenerate set,
every state is processed in ascending order by `from_spec_step`. -/
def from_spec_groups {S : ℕ} (deg_sets : List (Finset (Fin S))) :
    List (List (Fin S)) :=
  (List.finRange S).foldl (from_spec_step deg_sets)
    (List.replicate deg_sets.length [])

/-- Embeds `PerturbationTheoryCorrections` (Solver.py:245-291) with its payload
arrays concretized: state spaces as lists of excitation vectors, sparse
arrays as dense rational matrices. -/
structure PerturbationTheoryCorrections where
  hamiltonians : List (List (List ℚ))
  states : List (List ℕ)
  coupled_states : List (List ℕ)
  total_basis : List (List ℕ)
  energy_corrs : List (List ℚ)
  wfn_corrections : List (List (List ℚ))
  degenerate_states : Option (List (List (List ℕ)))
  degenerate_transf : Option (List (List ℚ))
  degenerate_energies : Option (List ℚ)
deriving DecidableEq

/-- The flat `np.savez` archive written by
`PerturbationTheoryCorrections.savez` (Solver.py:468-483): the three
degenerate keys are present exactly when the corresponding field is not
`None`, modelled by `Option`. -/
structure CorrectionsArchive where
  states : List (List ℕ)
  coupled_states : List (List ℕ)
  total_states : List (List ℕ)
  energies : List (List ℚ)
  wavefunctions : List (List (List ℚ))
  hamiltonians : List (List (List ℚ))
  degenerate_states : Option (List (List (List ℕ)))
  degenerate_transformation : Option (List (List ℚ))
  degenerate_energies : Option (List ℚ)
deriving DecidableEq

/-- The `states` dict consumed by
`PerturbationTheoryCorrections.from_dicts` (Solver.py:292-336); a missing
`degenerate_states` key (or one holding `None`) is modelled by `none`. -/
structure StatesDict where
  states : List (List ℕ)
  coupled_states : List (List ℕ)
  total_states : List (List ℕ)
  degenerate_states : Option (List (List (List ℕ)))

/-- The `corrections` dict consumed by `from_dicts`. -/
structure CorrectionsDict where
  energies : List (List ℚ)
  wavefunctions : List (List (List ℚ))
  degenerate_transformation : Option (List (List ℚ))
  degenerate_energies : Option (List ℚ)

/-- Embeds `PerturbationTheoryCorrections.from_dicts` (Solver.py:292-336). -/
def PerturbationTheoryCorrections.from_dicts (sd : StatesDict)
    (cd : CorrectionsDict) (hamiltonians : List (List (List ℚ))) :
    PerturbationTheoryCorrections :=
  { hamiltonians := hamiltonians
    states := sd.states
    coupled_states := sd.coupled_states
    total_basis := sd.total_states
    energy_corrs := cd.energies
    wfn_corrections := cd.wavefunctions
    degenerate_states := sd.degenerate_states
    degenerate_transf := cd.degenerate_transformation
    degenerate_energies := cd.degenerate_energies }

/-- Embeds `PerturbationTheoryCorrections.savez` (Solver.py:468-483). -/
def PerturbationTheoryCorrections.savez (c : PerturbationTheoryCorrections) :
    CorrectionsArchive :=
  { states := c.states
    coupled_states := c.coupled_states
    total_states := c.total_basis
    energies := c.energy_corrs
    wavefunctions := c.wfn_corrections
    hamiltonians := c.hamiltonians
    degenerate_states := c.degenerate_states
    degenerate_transformation := c.degenerate_transf
    degenerate_energies := c.degenerate_energies }

/-- Embeds `PerturbationTheoryCorrections.loadz` (Solver.py:484-501): rebuilds the
container through `from_dicts`, passing each degenerate key's value when
present and `None` otherwise. -/
def PerturbationTheoryCorrections.loadz (a : CorrectionsArchive) :
    PerturbationTheoryCorrections :=
  PerturbationTheoryCorrections.from_dicts
    { states := a.states
      coupled_states := a.coupled_states
      total_states := a.total_states
      degenerate_states := a.degenerate_states }
    { energies := a.energies
      wavefunctions := a.wavefunctions
      degenerate_transformation := a.degenerate_transformation
      degenerate_energies := a.degenerate_energies }
    a.hamiltonians

/-- Modelled from the spec: the external Checkpointer collaborator (a
McUtils import, not part of this repository).  Per §6 of the spec its
interface is `get(key) -> blob | KeyNotFound` and `set(key, blob)` whose
failure to persist is caught internally and ignored; `persistOK = false`
models a store (e.g. a read-only cache) whose writes fail, which per the
interface contract leaves the stored data unchanged and returns normally. -/
structure CheckpointState (R C : Type) where
  representations : Option R
  coupledStates : Option C
  persistOK : Bool

/-- Checkpoint lookup `checkpointer['representations']`: `KeyError` when absent. -/
def ckptGetReps {R C : Type} (st : CheckpointState R C) : Except Unit R :=
  match st.representations with
  | some h => .ok h
  | none => .error ()

/-- Checkpoint store `checkpointer['representations'] = H`, failure absorbed. -/
def ckptSetReps {R C : Type} (st : CheckpointState R C) (v : R) :
    CheckpointState R C :=
  if st.persistOK then { st with representations := some v } else st

/-- Checkpoint lookup `checkpointer['coupled_states']`. -/
def ckptGetCoupled {R C : Type} (st : CheckpointState R C) : Except Unit C :=
  match st.coupledStates with
  | some h => .ok h
  | none => .error ()

/-- Checkpoint store for `checkpointer['coupled_states']`, failure absorbed. -/
def ckptSetCoupled {R C : Type} (st : CheckpointState R C) (v : C) :
    CheckpointState R C :=
  if st.persistOK then { st with coupledStates := some v } else st

/-- Embeds `PerturbationTheorySolver.get_VPT_representations` (Solver.py:720-770)
reduced to its caching skeleton: try the checkpoint (a `KeyError` is caught
and treated as a miss), build from scratch on a miss (`build` stands for
the Parallelizer-backed assembly of the representation matrices), then
attempt to store the result. -/
def get_VPT_representations {R C : Type} (st : CheckpointState R C)
    (use_cached_representations : Bool) (build : R) : R × CheckpointState R C :=
  let H : Option R :=
    if use_cached_representations then
      match ckptGetReps st with
      | .ok h => some h
      | .error _ => none
    else none
  match H with
  | some h => (h, st)
  | none =>
    (build, if use_cached_representations then ckptSetReps st build else st)

/-- The caching skeleton of `PerturbationTheorySolver.load_state_spaces`
(Solver.py:1087-1122) for the coupled-state-space cache: the same
lookup-then-build-then-store pattern guarded by `use_cached_basis`. -/
def load_state_spaces {R C : Type} (st : CheckpointState R C)
    (use_cached_basis : Bool) (build : C) : C × CheckpointState R C :=
  let cs : Option C :=
    if use_cached_basis then
      match ckptGetCoupled st with
      | .ok h => some h
      | .error _ => none
    else none
  match cs with
  | some h => (h, st)
  | none =>
    (build, if use_cached_basis then ckptSetCoupled st build else st)

/-! ## Theorems -/

/-- The order-`k` energy reads the accumulation arrays only at orders
`1..k-1`. -/
theorem energyAtOrder_congr {N : ℕ} (HH : ℕ → OpMat N) (n : Fin N)
    (ig : Bool) {E E2 ov ov2 : ℕ → ℚ} {c c2 : ℕ → Vec N} (k : ℕ)
    (hE : ∀ j, 1 ≤ j → j < k → E j = E2 j)
    (hov : ∀ j, 1 ≤ j → j < k → ov j = ov2 j)
    (hc : ∀ j, 1 ≤ j → j < k → c j = c2 j) :
    energyAtOrder HH n ig E ov c k = energyAtOrder HH n ig E2 ov2 c2 k := by
  unfold energyAtOrder
  split
  · rfl
  · congr 1
    refine Finset.sum_congr rfl ?_
    intro i hi
    rw [Finset.mem_Ico] at hi
    rw [hc i hi.1 hi.2, hE (k - i) (by omega) (by omega), hov i hi.1 hi.2]

/-- The raw order-`k` wavefunction correction reads the energies only at
orders `1..k` and the corrections only at orders `0..k-1`. -/
theorem rawCorrVec_congr {N : ℕ} (pi : Vec N) (HH : ℕ → OpMat N)
    (cutoff : ℚ) {E E2 : ℕ → ℚ} {c c2 : ℕ → Vec N} (k : ℕ)
    (hE : ∀ j, 1 ≤ j → j ≤ k → E j = E2 j)
    (hc : ∀ j, j < k → c j = c2 j) :
    rawCorrVec pi HH cutoff E c k = rawCorrVec pi HH cutoff E2 c2 k := by
  funext m
  unfold rawCorrVec
  refine Finset.sum_congr rfl ?_
  intro i hi
  rw [Finset.mem_range] at hi
  rw [hE (k - i) (by omega) (by omega), hc i hi]

/-- The order-`k` overlap reads the corrections only at orders `1..k-1`. -/
theorem overlapAtOrder_congr {N : ℕ} (inorm : Bool) {c c2 : ℕ → Vec N}
    (k : ℕ) (hc : ∀ j, 1 ≤ j → j < k → c j = c2 j) :
    overlapAtOrder inorm c k = overlapAtOrder inorm c2 k := by
  unfold overlapAtOrder
  split
  · rfl
  · congr 1
    refine Finset.sum_congr rfl ?_
    intro i hi
    rw [Finset.mem_Ico] at hi
    rw [hc i hi.1 hi.2, hc (k - i) (by omega) (by omega)]

/-- Inversion of one successful loop iteration: the new state appends the
order-`k` energy, overlap and wavefunction row computed from the previous
arrays, the raw in-group coefficient check having passed. -/
theorem nondegStep_ok_inversion {N : ℕ} {HH : ℕ → OpMat N} {pi : Vec N}
    {n : Fin N} {deg : Finset (Fin N)} {cutoff : ℚ} {co inorm ig : Bool}
    {st st1 : PTRun N} {k : ℕ}
    (h : nondegStep HH pi n deg cutoff co inorm ig st k = .ok st1) :
    st1 = ⟨st.energies ++
        [energyAtOrder HH n ig (fun j => st.energies.getD j 0)
          (fun j => st.overlaps.getD j 0)
          (fun j => st.corrs.getD j (fun _ => 0)) k],
      st.overlaps ++ [overlapAtOrder inorm
        (fun j => st.corrs.getD j (fun _ => 0)) k],
      st.corrs ++ [fun m =>
        if m = n then
          overlapAtOrder inorm (fun j => st.corrs.getD j (fun _ => 0)) k
        else
          rawCorrVec pi HH cutoff
            (fun j => if j = k then
                energyAtOrder HH n ig (fun j' => st.energies.getD j' 0)
                  (fun j' => st.overlaps.getD j' 0)
                  (fun j' => st.corrs.getD j' (fun _ => 0)) k
              else st.energies.getD j 0)
            (fun j => st.corrs.getD j (fun _ => 0)) k m]⟩ := by
  simp only [nondegStep] at h
  split at h
  · exact absurd h (by simp)
  · exact (Except.ok.injEq _ _).mp h |>.symm

/-- With the in-group coefficient check disabled the loop iteration never
fails. -/
theorem nondegStep_no_check_ok {N : ℕ} (HH : ℕ → OpMat N) (pi : Vec N)
    (n : Fin N) (deg : Finset (Fin N)) (cutoff : ℚ) (inorm ig : Bool)
    (st : PTRun N) (k : ℕ) :
    ∃ st1, nondegStep HH pi n deg cutoff false inorm ig st k = .ok st1 := by
  simp only [nondegStep, Bool.false_eq_true, false_and, if_false]
  exact ⟨_, rfl⟩

/-- With the in-group coefficient check disabled the whole loop never
fails. -/
theorem runSteps_no_check_ok {N : ℕ} (HH : ℕ → OpMat N) (pi : Vec N)
    (n : Fin N) (deg : Finset (Fin N)) (cutoff : ℚ) (inorm ig : Bool) :
    ∀ (ks : List ℕ) (st : PTRun N),
      ∃ st', runSteps (nondegStep HH pi n deg cutoff false inorm ig) ks st =
        .ok st' := by
  intro ks
  induction ks with
  | nil => exact fun st => ⟨st, rfl⟩
  | cons k ks ih =>
    intro st
    obtain ⟨st1, h1⟩ := nondegStep_no_check_ok HH pi n deg cutoff inorm ig st k
    obtain ⟨st', h'⟩ := ih st1
    exact ⟨st', by unfold runSteps; rw [h1]; exact h'⟩

/-- Along a successful run of orders `s, s+1, …, s+m-1` starting from
arrays of length `s`, the arrays grow to length `s+m` and the first `s`
entries are unchanged. -/
theorem runSteps_lengths_stable {N : ℕ} (HH : ℕ → OpMat N) (pi : Vec N)
    (n : Fin N) (deg : Finset (Fin N)) (cutoff : ℚ) (co inorm ig : Bool) :
    ∀ (m s : ℕ) (st st' : PTRun N),
      st.energies.length = s → st.overlaps.length = s → st.corrs.length = s →
      runSteps (nondegStep HH pi n deg cutoff co inorm ig)
        (List.range' s m) st = .ok st' →
      (st'.energies.length = s + m ∧ st'.overlaps.length = s + m ∧
        st'.corrs.length = s + m) ∧
      (∀ j, j < s →
        st'.energies.getD j 0 = st.energies.getD j 0 ∧
        st'.overlaps.getD j 0 = st.overlaps.getD j 0 ∧
        st'.corrs.getD j (fun _ => 0) = st.corrs.getD j (fun _ => 0)) := by
  intro m
  induction m with
  | zero =>
    intro s st st' h1 h2 h3 hrun
    simp only [List.range'_zero, runSteps] at hrun
    cases hrun
    exact ⟨⟨by omega, by omega, by omega⟩, fun j _ => ⟨rfl, rfl, rfl⟩⟩
  | succ m ih =>
    intro s st st' h1 h2 h3 hrun
    rw [List.range'_succ] at hrun
    unfold runSteps at hrun
    rcases hstep : nondegStep HH pi n deg cutoff co inorm ig st s with e | st1
    · rw [hstep] at hrun; cases hrun
    · rw [hstep] at hrun
      have hshape := nondegStep_ok_inversion hstep
      subst hshape
      obtain ⟨⟨hl1, hl2, hl3⟩, hstab⟩ :=
        ih (s + 1) _ st' (by simp [h1]) (by simp [h2]) (by simp [h3]) hrun
      refine ⟨⟨by omega, by omega, by omega⟩, ?_⟩
      intro j hj
      obtain ⟨e1, e2, e3⟩ := hstab j (by omega)
      refine ⟨?_, ?_, ?_⟩
      · rw [e1, List.getD_append _ _ _ _ (by omega)]
      · rw [e2, List.getD_append _ _ _ _ (by omega)]
      · rw [e3, List.getD_append _ _ _ _ (by omega)]

/-- Reading the last entry of a one-element extension. -/
theorem getD_append_length {α : Type _} (l : List α) (a d : α) {j : ℕ}
    (h : l.length = j) : (l ++ [a]).getD j d = a := by
  rw [List.getD_append_right _ _ _ _ (by omega), h, Nat.sub_self]
  rfl

/-- Reading the updated entry after `List.set`. -/
theorem getD_set_self {α : Type _} (l : List α) (i : ℕ) (v d : α)
    (h : i < l.length) : (l.set i v).getD i d = v := by
  simp [List.getD_eq_getElem?_getD, List.getElem?_set_self h]

/-- Reading an untouched entry after `List.set`. -/
theorem getD_set_ne {α : Type _} (l : List α) (i j : ℕ) (v d : α)
    (h : i ≠ j) : (l.set i v).getD j d = l.getD j d := by
  simp [List.getD_eq_getElem?_getD, List.getElem?_set_ne h]

/-- Every entry of an all-`d` list reads as `d`. -/
theorem getD_replicate_self {α : Type _} (L j : ℕ) (d : α) :
    (List.replicate L d).getD j d = d := by
  simp [List.getD_eq_getElem?_getD, List.getElem?_replicate]
  split <;> rfl

/-- The appended entries of one successful loop iteration, read back off the
new state by index. -/
theorem nondegStep_ok_getD {N : ℕ} {HH : ℕ → OpMat N} {pi : Vec N}
    {n : Fin N} {deg : Finset (Fin N)} {cutoff : ℚ} {co inorm ig : Bool}
    {st st1 : PTRun N} {k : ℕ}
    (h : nondegStep HH pi n deg cutoff co inorm ig st k = .ok st1)
    (h1 : st.energies.length = k) (h2 : st.overlaps.length = k)
    (h3 : st.corrs.length = k) :
    (st1.energies.length = k + 1 ∧ st1.overlaps.length = k + 1 ∧
      st1.corrs.length = k + 1) ∧
    st1.energies.getD k 0 =
      energyAtOrder HH n ig (fun j => st.energies.getD j 0)
        (fun j => st.overlaps.getD j 0)
        (fun j => st.corrs.getD j (fun _ => 0)) k ∧
    st1.overlaps.getD k 0 =
      overlapAtOrder inorm (fun j => st.corrs.getD j (fun _ => 0)) k ∧
    st1.corrs.getD k (fun _ => 0) = (fun m' =>
      if m' = n then st1.overlaps.getD k 0
      else rawCorrVec pi HH cutoff
        (fun j => if j = k then st1.energies.getD k 0
          else st.energies.getD j 0)
        (fun j => st.corrs.getD j (fun _ => 0)) k m') ∧
    (∀ j, j < k →
      st1.energies.getD j 0 = st.energies.getD j 0 ∧
      st1.overlaps.getD j 0 = st.overlaps.getD j 0 ∧
      st1.corrs.getD j (fun _ => 0) = st.corrs.getD j (fun _ => 0)) := by
  have hshape := nondegStep_ok_inversion h
  subst hshape
  refine ⟨⟨by simp [h1], by simp [h2], by simp [h3]⟩,
    getD_append_length _ _ _ h1, getD_append_length _ _ _ h2, ?_, ?_⟩
  · rw [getD_append_length _ _ _ h3, getD_append_length _ _ _ h2,
      getD_append_length _ _ _ h1]
  · intro j hj
    exact ⟨List.getD_append _ _ _ _ (by omega),
      List.getD_append _ _ _ _ (by omega),
      List.getD_append _ _ _ _ (by omega)⟩

/-- Along a successful run of orders `s, …, s+m-1`, every processed order's
stored energy, overlap and wavefunction row satisfy the recursion formulas,
read over the final arrays. -/
theorem runSteps_order_values {N : ℕ} (HH : ℕ → OpMat N) (pi : Vec N)
    (n : Fin N) (deg : Finset (Fin N)) (cutoff : ℚ) (co inorm ig : Bool) :
    ∀ (m s : ℕ) (st st' : PTRun N),
      st.energies.length = s → st.overlaps.length = s → st.corrs.length = s →
      runSteps (nondegStep HH pi n deg cutoff co inorm ig)
        (List.range' s m) st = .ok st' →
      ∀ k, s ≤ k → k < s + m →
        st'.energies.getD k 0 =
          energyAtOrder HH n ig (fun j => st'.energies.getD j 0)
            (fun j => st'.overlaps.getD j 0)
            (fun j => st'.corrs.getD j (fun _ => 0)) k ∧
        st'.overlaps.getD k 0 =
          overlapAtOrder inorm (fun j => st'.corrs.getD j (fun _ => 0)) k ∧
        st'.corrs.getD k (fun _ => 0) = (fun m' =>
          if m' = n then st'.overlaps.getD k 0
          else rawCorrVec pi HH cutoff (fun j => st'.energies.getD j 0)
            (fun j => st'.corrs.getD j (fun _ => 0)) k m') := by
  intro m
  induction m with
  | zero =>
    intro s st st' _ _ _ _ k hk1 hk2
    omega
  | succ m ih =>
    intro s st st' h1 h2 h3 hrun k hk1 hk2
    rw [List.range'_succ] at hrun
    unfold runSteps at hrun
    rcases hstep : nondegStep HH pi n deg cutoff co inorm ig st s with e | st1
    · rw [hstep] at hrun; cases hrun
    · rw [hstep] at hrun
      obtain ⟨⟨l1, l2, l3⟩, gE, gO, gC, gStab⟩ :=
        nondegStep_ok_getD hstep h1 h2 h3
      rcases Nat.lt_or_ge k (s + 1) with hks | hks
      · have hk : k = s := by omega
        subst hk
        obtain ⟨_, hstab⟩ :=
          runSteps_lengths_stable HH pi n deg cutoff co inorm ig m (k + 1)
            st1 st' l1 l2 l3 hrun
        have hE1 : ∀ j, j ≤ k → st'.energies.getD j 0 = st1.energies.getD j 0 :=
          fun j hj => (hstab j (by omega)).1
        have hO1 : ∀ j, j ≤ k → st'.overlaps.getD j 0 = st1.overlaps.getD j 0 :=
          fun j hj => (hstab j (by omega)).2.1
        have hC1 : ∀ j, j ≤ k →
            st'.corrs.getD j (fun _ => 0) = st1.corrs.getD j (fun _ => 0) :=
          fun j hj => (hstab j (by omega)).2.2
        have hEj : ∀ j, j < k → st'.energies.getD j 0 = st.energies.getD j 0 :=
          fun j hj => (hE1 j (by omega)).trans (gStab j hj).1
        have hOj : ∀ j, j < k → st'.overlaps.getD j 0 = st.overlaps.getD j 0 :=
          fun j hj => (hO1 j (by omega)).trans (gStab j hj).2.1
        have hCj : ∀ j, j < k →
            st'.corrs.getD j (fun _ => 0) = st.corrs.getD j (fun _ => 0) :=
          fun j hj => (hC1 j (by omega)).trans (gStab j hj).2.2
        refine ⟨?_, ?_, ?_⟩
        · rw [hE1 k (by omega), gE]
          exact energyAtOrder_congr HH n ig k (fun j _ hj => (hEj j hj).symm)
            (fun j _ hj => (hOj j hj).symm) (fun j _ hj => (hCj j hj).symm)
        · rw [hO1 k (by omega), gO]
          exact overlapAtOrder_congr inorm k (fun j _ hj => (hCj j hj).symm)
        · rw [hC1 k (by omega), gC]
          funext m'
          rcases eq_or_ne m' n with rfl | hm
          · rw [if_pos rfl, if_pos rfl, (hO1 _ (by omega)).symm]
          · rw [if_neg hm, if_neg hm]
            refine congrFun (rawCorrVec_congr pi HH cutoff k ?_ ?_) m'
            · intro j hj1 hj2
              rcases eq_or_ne j k with rfl | hjk
              · rw [if_pos rfl, (hE1 _ (by omega)).symm]
              · rw [if_neg hjk]
                exact (hEj j (by omega)).symm
            · intro j hj
              exact (hCj j hj).symm
      · exact ih (s + 1) st1 st' l1 l2 l3 hrun k hks (by omega)

/-- Inversion of a successful engine call: the resolvent was built without
a degeneracy error, the order loop ran through, and — when the overlap
check is active — the final cumulative norm passed the `0.005` test. -/
theorem apply_VPT_ok_inversion {N : ℕ} {H0 : Mat N} {Hrest : List (OpMat N)}
    {order : ℕ} {n : Fin N} {degGroup : Option (Finset (Fin N))}
    {cutoff : ℚ} {coArg inorm ig : Bool} {st : PTRun N}
    (h : apply_VPT_nondeg_equations H0 Hrest order n degGroup cutoff coArg
      inorm ig = .ok st) :
    ∃ pi, get_Pi0 (zero_order_energies H0) (degIndsOf degGroup n)
        (zero_order_energies H0 n) cutoff = .ok pi ∧
      runSteps (nondegStep (pastIndexGet (some H0 :: Hrest)) pi n
          (degIndsOf degGroup n) cutoff (if inorm then false else coArg)
          inorm ig)
        (List.range' 1 order)
        (initRun (zero_order_energies H0 n) n) = .ok st ∧
      ((if inorm then false else coArg) = true →
        |cumulativeNorm st.corrs order - 1| ≤ 1 / 200) := by
  simp only [apply_VPT_nondeg_equations] at h
  split at h
  · cases h
  · next pi hpi =>
    split at h
    · cases h
    · next st0 hrun =>
      refine ⟨pi, hpi, ?_⟩
      by_cases hco : (if inorm then false else coArg) = true
      · rw [if_pos hco] at h
        split at h
        · cases h
        · next hnorm =>
          cases h
          exact ⟨hrun, fun _ => le_of_not_lt hnorm⟩
      · rw [if_neg hco] at h
        cases h
        exact ⟨hrun, fun hcontra => absurd hcontra hco⟩

/-- Inversion of a successful resolvent build: the returned diagonal is
`0` on the degenerate group and `1/(E_m - E0)` outside it. -/
theorem get_Pi0_ok_vals {N : ℕ} {e_vec_full : Vec N} {deg : Finset (Fin N)}
    {E0 cutoff : ℚ} {pi : Vec N}
    (h : get_Pi0 e_vec_full deg E0 cutoff = .ok pi) :
    (∀ m ∈ deg, pi m = 0) ∧
    (∀ m ∉ deg, pi m = 1 / (e_vec_full m - E0)) := by
  simp only [get_Pi0] at h
  split at h
  · cases h
  · cases h
    constructor
    · intro m hm; simp [hm]
    · intro m hm; simp [hm]

/-- When the resolvent build fails, the engine stops with that degeneracy
error before any wavefunction coefficient is produced. -/
theorem apply_VPT_pi_error {N : ℕ} (H0 : Mat N) (Hrest : List (OpMat N))
    (order : ℕ) (n : Fin N) (degGroup : Option (Finset (Fin N)))
    (cutoff : ℚ) (coArg inorm ig : Bool) (e : DegeneracyEncountered N)
    (h : get_Pi0 (zero_order_energies H0) (degIndsOf degGroup n)
      (zero_order_energies H0 n) cutoff = .error e) :
    apply_VPT_nondeg_equations H0 Hrest order n degGroup cutoff coArg
      inorm ig = .error (.degeneracyEncountered e) := by
  simp only [apply_VPT_nondeg_equations, h]

/-- C5: for any target state `n`, if the engine returns, the order-0 energy
equals the diagonal element of the `H0` representation at `n`
(`zero_order_energies`), the order-0 wavefunction is the unit vector at
`n`, and the order-0 overlap is `1`. -/
theorem C5_order0_exactness {N : ℕ} (H0 : Mat N) (Hrest : List (OpMat N))
    (order : ℕ) (n : Fin N) (degGroup : Option (Finset (Fin N)))
    (cutoff : ℚ) (coArg inorm ig : Bool) (st : PTRun N)
    (h : apply_VPT_nondeg_equations H0 Hrest order n degGroup cutoff coArg
      inorm ig = .ok st) :
    st.energies.getD 0 0 = zero_order_energies H0 n ∧
    st.overlaps.getD 0 0 = 1 ∧
    st.corrs.getD 0 (fun _ => 0) = (fun m => if m = n then 1 else 0) := by
  obtain ⟨pi, -, hrun, -⟩ := apply_VPT_ok_inversion h
  obtain ⟨-, hstab⟩ := runSteps_lengths_stable _ pi n _ cutoff _ inorm ig
    order 1 (initRun (zero_order_energies H0 n) n) st rfl rfl rfl hrun
  obtain ⟨e1, e2, e3⟩ := hstab 0 (by omega)
  exact ⟨by rw [e1]; rfl, by rw [e2]; rfl, by rw [e3]; rfl⟩

/-- Witness for C5 on a one-state system with `H0 = [[37]]`. -/
theorem C5_order0_exactness_witness :
    ∃ st : PTRun 1,
      apply_VPT_nondeg_equations (N := 1) (fun _ _ => 37) [] 0 0 none
        (1 / 100) true false false = .ok st ∧
      (st.energies.getD 0 0 = zero_order_energies (N := 1) (fun _ _ => 37) 0 ∧
       st.overlaps.getD 0 0 = 1 ∧
       st.corrs.getD 0 (fun _ => 0) = (fun m => if m = 0 then 1 else 0)) := by
  have h1 : (apply_VPT_nondeg_equations (N := 1) (fun _ _ => 37) [] 0 0 none
      (1 / 100) true false false).toOption.isSome = true := by decide
  rcases hE : apply_VPT_nondeg_equations (N := 1) (fun _ _ => 37) [] 0 0 none
      (1 / 100) true false false with e | st
  · rw [hE] at h1; simp [Except.toOption] at h1
  · exact ⟨st, rfl, C5_order0_exactness (fun _ _ => 37) [] 0 0 none (1 / 100)
      true false false st hE⟩

/-- Multiplying by a resolvent entry that vanishes on the degenerate group
kills every term of the raw wavefunction correction there. -/
theorem rawCorrVec_zero_on_deg {N : ℕ} (pi : Vec N) (HH : ℕ → OpMat N)
    (cutoff : ℚ) (E : ℕ → ℚ) (c : ℕ → Vec N) (k : ℕ)
    {deg : Finset (Fin N)} {m : Fin N}
    (hpi : ∀ m' ∈ deg, pi m' = 0) (hm : m ∈ deg) :
    rawCorrVec pi HH cutoff E c k m = 0 := by
  unfold rawCorrVec
  refine Finset.sum_eq_zero ?_
  intro i _
  rw [hpi m hm]
  split <;> ring

/-- C2 (amended): for every order `k ≥ 1` and target state `n` run against
a declared degenerate group `D`, the stored coefficient of the order-`k`
correction on every other member of `D` is exactly `0` (the resolvent is
zero on `D`, so the raw coefficients vanish there before normalization);
the fatal in-group check, however, fires only when a coefficient is
strictly positive — a nonzero negative coefficient would not raise. -/
theorem C2_degenerate_orthogonality {N : ℕ} (H0 : Mat N)
    (Hrest : List (OpMat N)) (order : ℕ) (n : Fin N) (D : Finset (Fin N))
    (cutoff : ℚ) (coArg inorm ig : Bool) (st : PTRun N)
    (h : apply_VPT_nondeg_equations H0 Hrest order n (some D) cutoff coArg
      inorm ig = .ok st) :
    (∀ k, 1 ≤ k → ∀ m ∈ D, m ≠ n → st.corrs.getD k (fun _ => 0) m = 0) ∧
    (∀ v : Vec N, overlapCheckAny D v = true ↔ ∃ m ∈ D, 0 < v m) := by
  obtain ⟨pi, hpi, hrun, -⟩ := apply_VPT_ok_inversion h
  obtain ⟨hz, -⟩ := get_Pi0_ok_vals hpi
  constructor
  · intro k hk m hm hmn
    rcases Nat.lt_or_ge k (1 + order) with hko | hko
    · obtain ⟨-, -, hC⟩ := runSteps_order_values _ pi n _ cutoff _ inorm ig
        order 1 (initRun (zero_order_energies H0 n) n) st rfl rfl rfl hrun
        k hk hko
      rw [congrFun hC m, if_neg hmn]
      exact rawCorrVec_zero_on_deg _ _ _ _ _ _ hz hm
    · obtain ⟨⟨-, -, hlen⟩, -⟩ := runSteps_lengths_stable _ pi n _ cutoff _
        inorm ig order 1 (initRun (zero_order_energies H0 n) n) st rfl rfl
        rfl hrun
      rw [List.getD_eq_default _ _ (by omega)]
  · intro v
    simp [overlapCheckAny]

/-- Witness for C2 (amended) on three states with a two-member degenerate
group `{0, 1}`. -/
theorem C2_degenerate_orthogonality_witness :
    ∃ st : PTRun 3,
      apply_VPT_nondeg_equations (N := 3)
        (fun i j => if i = j then (if i.1 = 2 then 3 / 2 else 1 / 2) else 0)
        [] 1 0 (some {0, 1}) (1 / 10 ^ 14) true false false = .ok st ∧
      ((∀ k, 1 ≤ k → ∀ m ∈ ({0, 1} : Finset (Fin 3)), m ≠ 0 →
          st.corrs.getD k (fun _ => 0) m = 0) ∧
       (∀ v : Vec 3, overlapCheckAny ({0, 1} : Finset (Fin 3)) v = true ↔
          ∃ m ∈ ({0, 1} : Finset (Fin 3)), 0 < v m)) := by
  have h1 : (apply_VPT_nondeg_equations (N := 3)
      (fun i j => if i = j then (if i.1 = 2 then 3 / 2 else 1 / 2) else 0)
      [] 1 0 (some {0, 1}) (1 / 10 ^ 14) true false
      false).toOption.isSome = true := by decide
  rcases hE : apply_VPT_nondeg_equations (N := 3)
      (fun i j => if i = j then (if i.1 = 2 then 3 / 2 else 1 / 2) else 0)
      [] 1 0 (some {0, 1}) (1 / 10 ^ 14) true false false with e | st
  · rw [hE] at h1; simp [Except.toOption] at h1
  · exact ⟨st, rfl, C2_degenerate_orthogonality
      (fun i j => if i = j then (if i.1 = 2 then 3 / 2 else 1 / 2) else 0)
      [] 1 0 {0, 1} (1 / 10 ^ 14) true false false st hE⟩

/-- C3: under a configuration not using intermediate normalization (with
the overlap check active), a successful run's cumulative norm
`Σ_{k=0}^{order} Σ_{i=0}^{k} ⟨ψ_i|ψ_{k-i}⟩` is within `0.005` of `1` — a
larger deviation instead raises the fatal normalization `ValueError`
naming the state; when intermediate normalization is requested, every
order-`k ≥ 1` overlap is forced to `0` and the final check is skipped, so
a normalization failure can never be raised. -/
theorem C3_normalization_invariant {N : ℕ} (H0 : Mat N)
    (Hrest : List (OpMat N)) (order : ℕ) (n : Fin N)
    (degGroup : Option (Finset (Fin N))) (cutoff : ℚ) (coArg ig : Bool) :
    (∀ st : PTRun N,
      apply_VPT_nondeg_equations H0 Hrest order n degGroup cutoff true
        false ig = .ok st →
      |cumulativeNorm st.corrs order - 1| ≤ 1 / 200) ∧
    (∀ n' q, apply_VPT_nondeg_equations H0 Hrest order n degGroup cutoff
      coArg true ig ≠ .error (.normalizationFailure n' q)) ∧
    (∀ st : PTRun N,
      apply_VPT_nondeg_equations H0 Hrest order n degGroup cutoff coArg
        true ig = .ok st →
      ∀ k, 1 ≤ k → st.overlaps.getD k 0 = 0) := by
  refine ⟨?_, ?_, ?_⟩
  · intro st h
    obtain ⟨pi, -, -, hchk⟩ := apply_VPT_ok_inversion h
    exact hchk rfl
  · intro n' q hcontra
    simp only [apply_VPT_nondeg_equations] at hcontra
    split at hcontra
    · cases hcontra
    · next pi hpi =>
      split at hcontra
      · next e0 hrun0 =>
        obtain ⟨st', hok⟩ := runSteps_no_check_ok
          (pastIndexGet (some H0 :: Hrest)) pi n (degIndsOf degGroup n)
          cutoff true ig (List.range' 1 order)
          (initRun (zero_order_energies H0 n) n)
        rw [if_pos trivial] at hrun0
        rw [hok] at hrun0
        cases hrun0
      · next st0 hrun0 =>
        rw [if_pos trivial] at hcontra
        rw [if_neg (by simp)] at hcontra
        cases hcontra
  · intro st h k hk
    obtain ⟨pi, hpi, hrun, -⟩ := apply_VPT_ok_inversion h
    rcases Nat.lt_or_ge k (1 + order) with hko | hko
    · obtain ⟨-, hO, -⟩ := runSteps_order_values _ pi n _ cutoff _ true ig
        order 1 (initRun (zero_order_energies H0 n) n) st rfl rfl rfl hrun
        k hk hko
      rw [hO]
      simp [overlapAtOrder]
    · obtain ⟨⟨-, hlen, -⟩, -⟩ := runSteps_lengths_stable _ pi n _ cutoff _
        true ig order 1 (initRun (zero_order_energies H0 n) n) st rfl rfl
        rfl hrun
      rw [List.getD_eq_default _ _ (by omega)]

/-- Witness for C3 on a one-state system, in both normalization modes. -/
theorem C3_normalization_invariant_witness :
    ∃ st1 st2 : PTRun 1,
      apply_VPT_nondeg_equations (N := 1) (fun _ _ => 1) [] 1 0 none
        (1 / 100) true false false = .ok st1 ∧
      |cumulativeNorm st1.corrs 1 - 1| ≤ 1 / 200 ∧
      apply_VPT_nondeg_equations (N := 1) (fun _ _ => 1) [] 1 0 none
        (1 / 100) true true false = .ok st2 ∧
      st2.overlaps.getD 1 0 = 0 := by
  have h1 : (apply_VPT_nondeg_equations (N := 1) (fun _ _ => 1) [] 1 0 none
      (1 / 100) true false false).toOption.isSome = true := by decide
  have h2 : (apply_VPT_nondeg_equations (N := 1) (fun _ _ => 1) [] 1 0 none
      (1 / 100) true true false).toOption.isSome = true := by decide
  rcases hE1 : apply_VPT_nondeg_equations (N := 1) (fun _ _ => 1) [] 1 0 none
      (1 / 100) true false false with e | st1
  · rw [hE1] at h1; simp [Except.toOption] at h1
  · rcases hE2 : apply_VPT_nondeg_equations (N := 1) (fun _ _ => 1) [] 1 0
        none (1 / 100) true true false with e | st2
    · rw [hE2] at h2; simp [Except.toOption] at h2
    · exact ⟨st1, st2, rfl,
        (C3_normalization_invariant (fun _ _ => 1) [] 1 0 none (1 / 100)
          true false).1 st1 hE1, rfl,
        (C3_normalization_invariant (fun _ _ => 1) [] 1 0 none (1 / 100)
          true false).2.2 st2 hE2 1 le_rfl⟩

/-- C7: with `ignore_odd_order_energies` configured, every odd-order
energy correction returned by the engine is exactly `0`, while every
even-order energy is the standard recursion
`E_k = <n|H_k|n> + Σ_{i=1}^{k-1} (<n|H_{k-i}|ψ_i> - E_{k-i}·⟨n|ψ_i⟩)`
evaluated on the returned arrays. -/
theorem C7_odd_order_energies {N : ℕ} (H0 : Mat N) (Hrest : List (OpMat N))
    (order : ℕ) (n : Fin N) (degGroup : Option (Finset (Fin N)))
    (cutoff : ℚ) (coArg inorm : Bool) (st : PTRun N)
    (h : apply_VPT_nondeg_equations H0 Hrest order n degGroup cutoff coArg
      inorm true = .ok st) :
    ∀ k, 1 ≤ k → k ≤ order →
      (k % 2 = 1 → st.energies.getD k 0 = 0) ∧
      (k % 2 = 0 → st.energies.getD k 0 =
        takeDiag (pastIndexGet (some H0 :: Hrest) k) n +
          ∑ i ∈ Finset.Ico 1 k,
            (takeRowDot (pastIndexGet (some H0 :: Hrest) (k - i)) n
                (st.corrs.getD i (fun _ => 0)) -
              st.energies.getD (k - i) 0 * st.overlaps.getD i 0)) := by
  intro k hk1 hk2
  obtain ⟨pi, hpi, hrun, -⟩ := apply_VPT_ok_inversion h
  obtain ⟨hE, -, -⟩ := runSteps_order_values _ pi n _ cutoff _ inorm true
    order 1 (initRun (zero_order_energies H0 n) n) st rfl rfl rfl hrun k hk1
    (by omega)
  constructor
  · intro hodd
    rw [hE]
    unfold energyAtOrder
    rw [if_pos ⟨rfl, hodd⟩]
  · intro heven
    rw [hE]
    unfold energyAtOrder
    rw [if_neg (fun hcon => (by omega : k % 2 ≠ 1) hcon.2)]

/-- Witness for C7 on the trivial oscillator with odd orders ignored. -/
theorem C7_odd_order_energies_witness :
    ∃ st : PTRun 4,
      apply_VPT_nondeg_equations (N := 4)
        (fun i j => if i = j then (i.1 : ℚ) + 1 / 2 else 0) [none, none]
        2 0 none (1 / 10 ^ 14) true false true = .ok st ∧
      st.energies.getD 1 0 = 0 ∧
      st.energies.getD 2 0 =
        takeDiag (pastIndexGet ((some
            (fun i j => if i = j then (i.1 : ℚ) + 1 / 2 else 0) : OpMat 4) ::
          [none, none]) 2) 0 +
          ∑ i ∈ Finset.Ico 1 2,
            (takeRowDot (pastIndexGet ((some
                (fun i j => if i = j then (i.1 : ℚ) + 1 / 2 else 0) :
              OpMat 4) :: [none, none]) (2 - i)) 0
              (st.corrs.getD i (fun _ => 0)) -
              st.energies.getD (2 - i) 0 * st.overlaps.getD i 0) := by
  have h1 : (apply_VPT_nondeg_equations (N := 4)
      (fun i j => if i = j then (i.1 : ℚ) + 1 / 2 else 0) [none, none]
      2 0 none (1 / 10 ^ 14) true false true).toOption.isSome = true := by
    decide
  rcases hE : apply_VPT_nondeg_equations (N := 4)
      (fun i j => if i = j then (i.1 : ℚ) + 1 / 2 else 0) [none, none]
      2 0 none (1 / 10 ^ 14) true false true with e | st
  · rw [hE] at h1; simp [Except.toOption] at h1
  · exact ⟨st, rfl,
      (C7_odd_order_energies (fun i j => if i = j then (i.1 : ℚ) + 1 / 2
        else 0) [none, none] 2 0 none (1 / 10 ^ 14) true false st hE 1
        (by omega) (by omega)).1 rfl,
      (C7_odd_order_energies (fun i j => if i = j then (i.1 : ℚ) + 1 / 2
        else 0) [none, none] 2 0 none (1 / 10 ^ 14) true false st hE 2
        (by omega) (by omega)).2 rfl⟩

/-- With a positive cutoff, every group produced by the energy-cutoff
clustering has a seed: a state whose first matching group is that group
(namely the state whose processing created the group). -/
theorem cutoff_groups_seed {S : ℕ} (energies : Fin S → ℚ) (cutoff : ℚ)
    (hcut : 0 < cutoff) :
    ∀ i, i < (group_states_by_energy_cutoff energies cutoff).length →
      ∃ x : Fin S, (group_states_by_energy_cutoff energies cutoff).findIdx?
        (fun d => decide (x ∈ d)) = some i := by
  suffices h : ∀ (xs : List (Fin S)) (gs : List (Finset (Fin S))),
      (∀ i, i < gs.length →
        ∃ x : Fin S, gs.findIdx? (fun d => decide (x ∈ d)) = some i) →
      ∀ i, i < (xs.foldl (energy_cutoff_step energies cutoff) gs).length →
        ∃ x : Fin S, (xs.foldl (energy_cutoff_step energies cutoff)
          gs).findIdx? (fun d => decide (x ∈ d)) = some i by
    exact h (List.finRange S) [] (fun i hi => absurd hi (by simp))
  intro xs
  induction xs with
  | nil => exact fun gs h => h
  | cons a rest ih =>
    intro gs hgs
    simp only [List.foldl_cons]
    apply ih
    unfold energy_cutoff_step
    split
    · next hguard =>
      intro i hi
      rw [List.length_append, List.length_cons, List.length_nil] at hi
      rcases Nat.lt_or_ge i gs.length with hilt | hige
      · obtain ⟨x, hx⟩ := hgs i hilt
        refine ⟨x, ?_⟩
        rw [List.findIdx?_append, hx]
        rfl
      · have hieq : i = gs.length := by omega
        subst hieq
        refine ⟨a, ?_⟩
        rw [List.findIdx?_append]
        have hnone : gs.findIdx? (fun d => decide (a ∈ d)) = none := by
          rw [List.findIdx?_eq_none_iff]
          intro d hd
          simp [hguard d hd]
        rw [hnone]
        have hmem : a ∈ Finset.univ.filter
            (fun m => |energies m - energies a| < cutoff) := by
          simp [Finset.mem_filter, abs_of_nonneg, sub_self, hcut]
        simp [List.findIdx?_cons, hmem]
    · exact hgs

/-- Invariants of the group-assembly fold of `from_spec`: buckets only grow
and only by processed states, new buckets are nonempty and hold processed
states, a state whose first matching degenerate set is `i` lands in bucket
`i`, and every processed state lies in exactly one bucket. -/
theorem from_spec_fold_invariant {S : ℕ} (deg_sets : List (Finset (Fin S))) :
    ∀ (xs : List (Fin S)) (gs : List (List (Fin S))),
      xs.Nodup →
      deg_sets.length ≤ gs.length →
      (∀ x ∈ xs, ∀ j, j < gs.length → x ∉ gs.getD j []) →
      gs.length ≤ (xs.foldl (from_spec_step deg_sets) gs).length ∧
      (∀ j, j < gs.length →
        ∃ t, (xs.foldl (from_spec_step deg_sets) gs).getD j [] =
          gs.getD j [] ++ t ∧ ∀ y ∈ t, y ∈ xs) ∧
      (∀ j, gs.length ≤ j →
        ∀ y ∈ (xs.foldl (from_spec_step deg_sets) gs).getD j [], y ∈ xs) ∧
      (∀ j, gs.length ≤ j →
        j < (xs.foldl (from_spec_step deg_sets) gs).length →
        (xs.foldl (from_spec_step deg_sets) gs).getD j [] ≠ []) ∧
      (∀ x ∈ xs, ∀ i, deg_sets.findIdx? (fun d => decide (x ∈ d)) = some i →
        x ∈ (xs.foldl (from_spec_step deg_sets) gs).getD i []) ∧
      (∀ x ∈ xs, ∃ j,
        j < (xs.foldl (from_spec_step deg_sets) gs).length ∧
        x ∈ (xs.foldl (from_spec_step deg_sets) gs).getD j [] ∧
        ∀ j', x ∈ (xs.foldl (from_spec_step deg_sets) gs).getD j' [] →
          j' = j) := by
  intro xs
  induction xs with
  | nil =>
    intro gs _ _ _
    simp only [List.foldl_nil]
    refine ⟨le_refl _, ?_, ?_, ?_, ?_, ?_⟩
    · intro j _
      exact ⟨[], by simp, by simp⟩
    · intro j hj y hy
      rw [List.getD_eq_default _ _ hj] at hy
      cases hy
    · intro j hj hj2
      omega
    · intro x hx
      cases hx
    · intro x hx
      cases hx
  | cons a rest ih =>
    intro gs hnd hL hclean
    obtain ⟨hna, hndr⟩ := List.nodup_cons.mp hnd
    simp only [List.foldl_cons]
    rcases hfi : deg_sets.findIdx? (fun d => decide (a ∈ d)) with _ | i
    · -- no degenerate set contains `a`: a fresh singleton bucket is opened
      have hstep : from_spec_step deg_sets gs a = gs ++ [[a]] := by
        unfold from_spec_step
        rw [hfi]
      rw [hstep]
      have hg1 : ∀ j, j < gs.length → (gs ++ [[a]]).getD j [] = gs.getD j [] :=
        fun j hj => List.getD_append _ _ _ _ hj
      have hg2 : (gs ++ [[a]]).getD gs.length [] = [a] :=
        getD_append_length _ _ _ rfl
      have hg3 : ∀ j, gs.length + 1 ≤ j → (gs ++ [[a]]).getD j [] = [] :=
        fun j hj => List.getD_eq_default _ _ (by simp; omega)
      have hclean1 : ∀ x ∈ rest, ∀ j, j < (gs ++ [[a]]).length →
          x ∉ (gs ++ [[a]]).getD j [] := by
        intro x hx j hj
        rcases Nat.lt_or_ge j gs.length with hjl | hjg
        · rw [hg1 j hjl]
          exact hclean x (List.mem_cons_of_mem _ hx) j hjl
        · have : j = gs.length := by simp at hj; omega
          subst this
          rw [hg2]
          simp only [List.mem_singleton]
          intro hxa
          exact hna (hxa ▸ hx)
      obtain ⟨ih1, ih2, ih3, ih4, ih5, ih6⟩ :=
        ih (gs ++ [[a]]) hndr (by simp; omega) hclean1
      have hlen1 : (gs ++ [[a]]).length = gs.length + 1 := by simp
      refine ⟨by omega, ?_, ?_, ?_, ?_, ?_⟩
      · intro j hj
        obtain ⟨t, ht, hty⟩ := ih2 j (by omega)
        rw [hg1 j hj] at ht
        exact ⟨t, ht, fun y hy => List.mem_cons_of_mem _ (hty y hy)⟩
      · intro j hj y hy
        rcases Nat.lt_or_ge j (gs.length + 1) with hjl | hjg
        · have : j = gs.length := by omega
          subst this
          obtain ⟨t, ht, hty⟩ := ih2 gs.length (by omega)
          rw [ht, hg2] at hy
          rcases List.mem_append.mp hy with hy1 | hy2
          · simp only [List.mem_singleton] at hy1
            exact hy1 ▸ List.mem_cons_self _ _
          · exact List.mem_cons_of_mem _ (hty y hy2)
        · exact List.mem_cons_of_mem _ (ih3 j (by omega) y hy)
      · intro j hj hj2
        rcases Nat.lt_or_ge j (gs.length + 1) with hjl | hjg
        · have : j = gs.length := by omega
          subst this
          obtain ⟨t, ht, -⟩ := ih2 gs.length (by omega)
          rw [ht, hg2]
          simp
        · exact ih4 j (by omega) hj2
      · intro x hx i hi
        rcases List.mem_cons.mp hx with rfl | hxr
        · rw [hi] at hfi
          cases hfi
        · exact ih5 x hxr i hi
      · intro x hx
        rcases List.mem_cons.mp hx with rfl | hxr
        · refine ⟨gs.length, by omega, ?_, ?_⟩
          · obtain ⟨t, ht, -⟩ := ih2 gs.length (by omega)
            rw [ht, hg2]
            exact List.mem_append_left _ (List.mem_singleton_self _)
          · intro j' hj'
            rcases Nat.lt_or_ge j' (gs.length + 1) with hjl | hjg
            · rcases Nat.lt_or_ge j' gs.length with hjl2 | hjg2
              · obtain ⟨t, ht, hty⟩ := ih2 j' (by omega)
                rw [ht, hg1 j' hjl2] at hj'
                rcases List.mem_append.mp hj' with hy1 | hy2
                · exact absurd hy1 (hclean x (List.mem_cons_self _ _) j' hjl2)
                · exact absurd (hty x hy2) hna
              · omega
            · exact absurd (ih3 j' (by omega) x hj') hna
        · exact ih6 x hxr
    · -- `a` lands in the bucket of its first matching set `i`
      have hdi : i < deg_sets.length := by
        obtain ⟨hlt, -⟩ := List.findIdx?_eq_some_iff_getElem.mp hfi
        exact hlt
      have higs : i < gs.length := by omega
      have hstep : from_spec_step deg_sets gs a =
          gs.set i (gs.getD i [] ++ [a]) := by
        unfold from_spec_step
        rw [hfi]
      rw [hstep]
      have hg1 : ∀ j, j ≠ i →
          (gs.set i (gs.getD i [] ++ [a])).getD j [] = gs.getD j [] :=
        fun j hj => getD_set_ne _ _ _ _ _ (fun h => hj h.symm)
      have hg2 : (gs.set i (gs.getD i [] ++ [a])).getD i [] =
          gs.getD i [] ++ [a] :=
        getD_set_self _ _ _ _ higs
      have hlen1 : (gs.set i (gs.getD i [] ++ [a])).length = gs.length := by
        simp
      have hclean1 : ∀ x ∈ rest, ∀ j,
          j < (gs.set i (gs.getD i [] ++ [a])).length →
          x ∉ (gs.set i (gs.getD i [] ++ [a])).getD j [] := by
        intro x hx j hj
        rw [hlen1] at hj
        rcases eq_or_ne j i with rfl | hji
        · rw [hg2]
          simp only [List.mem_append, List.mem_singleton]
          rintro (hy1 | rfl)
          · exact hclean x (List.mem_cons_of_mem _ hx) j hj hy1
          · exact hna hx
        · rw [hg1 j hji]
          exact hclean x (List.mem_cons_of_mem _ hx) j hj
      obtain ⟨ih1, ih2, ih3, ih4, ih5, ih6⟩ :=
        ih (gs.set i (gs.getD i [] ++ [a])) hndr (by omega) hclean1
      refine ⟨by omega, ?_, ?_, ?_, ?_, ?_⟩
      · intro j hj
        obtain ⟨t, ht, hty⟩ := ih2 j (by omega)
        rcases eq_or_ne j i with rfl | hji
        · rw [hg2, List.append_assoc] at ht
          exact ⟨[a] ++ t, ht, by
            intro y hy
            rcases List.mem_append.mp hy with hy1 | hy2
            · simp only [List.mem_singleton] at hy1
              exact hy1 ▸ List.mem_cons_self _ _
            · exact List.mem_cons_of_mem _ (hty y hy2)⟩
        · rw [hg1 j hji] at ht
          exact ⟨t, ht, fun y hy => List.mem_cons_of_mem _ (hty y hy)⟩
      · intro j hj y hy
        exact List.mem_cons_of_mem _ (ih3 j (by omega) y hy)
      · intro j hj hj2
        exact ih4 j (by omega) hj2
      · intro x hx i' hi'
        rcases List.mem_cons.mp hx with rfl | hxr
        · have hii : i' = i := (Option.some.inj (hfi.symm.trans hi')).symm
          rw [hii]
          obtain ⟨t, ht, -⟩ := ih2 i (by omega)
          rw [ht, hg2]
          exact List.mem_append_left _
            (List.mem_append_right _ (List.mem_singleton_self _))
        · exact ih5 x hxr i' hi'
      · intro x hx
        rcases List.mem_cons.mp hx with rfl | hxr
        · refine ⟨i, by omega, ?_, ?_⟩
          · obtain ⟨t, ht, -⟩ := ih2 i (by omega)
            rw [ht, hg2]
            exact List.mem_append_left _
              (List.mem_append_right _ (List.mem_singleton_self _))
          · intro j' hj'
            rcases Nat.lt_or_ge j' gs.length with hjl | hjg
            · obtain ⟨t, ht, hty⟩ := ih2 j' (by omega)
              rw [ht] at hj'
              rcases List.mem_append.mp hj' with hy1 | hy2
              · rcases eq_or_ne j' i with rfl | hji
                · rfl
                · rw [hg1 j' hji] at hy1
                  exact absurd hy1
                    (hclean x (List.mem_cons_self _ _) j' hjl)
              · exact absurd (hty x hy2) hna
            · exact absurd (ih3 j' (by omega) x hj') hna
        · exact ih6 x hxr

/-- C4 (amended): with a positive cutoff, the final grouping built by
`from_spec` over the energy-cutoff clusters is a partition of the input
state space — every state is in some group, groups are pairwise disjoint,
and every group is nonempty — even though the raw clustering can emit
overlapping groups (it gathers all states within the cutoff, including
already-assigned ones); disjointness is restored because `from_spec`
assigns each state to the first group containing it. -/
theorem C4_energy_cutoff_partition {S : ℕ} (energies : Fin S → ℚ)
    (cutoff : ℚ) (hcut : 0 < cutoff) :
    (∀ x : Fin S, ∃ g ∈ from_spec_groups
        (group_states_by_energy_cutoff energies cutoff), x ∈ g) ∧
    (from_spec_groups (group_states_by_energy_cutoff energies
      cutoff)).Pairwise (fun g₁ g₂ => ∀ x, x ∈ g₁ → x ∉ g₂) ∧
    (∀ g ∈ from_spec_groups (group_states_by_energy_cutoff energies cutoff),
      g ≠ []) := by
  obtain ⟨h1, h2, h3, h4, h5, h6⟩ :=
    from_spec_fold_invariant (group_states_by_energy_cutoff energies cutoff)
      (List.finRange S)
      (List.replicate
        (group_states_by_energy_cutoff energies cutoff).length [])
      (List.nodup_finRange S) (by simp)
      (fun x _ j _ hmem => by rw [getD_replicate_self] at hmem; cases hmem)
  have hGdef : from_spec_groups
      (group_states_by_energy_cutoff energies cutoff) =
      (List.finRange S).foldl
        (from_spec_step (group_states_by_energy_cutoff energies cutoff))
        (List.replicate
          (group_states_by_energy_cutoff energies cutoff).length []) := rfl
  rw [hGdef]
  refine ⟨?_, ?_, ?_⟩
  · intro x
    obtain ⟨j, hj, hmem, -⟩ := h6 x (List.mem_finRange x)
    refine ⟨((List.finRange S).foldl
      (from_spec_step (group_states_by_energy_cutoff energies cutoff))
      (List.replicate
        (group_states_by_energy_cutoff energies cutoff).length [])).getD
      j [], ?_, hmem⟩
    rw [List.getD_eq_getElem _ _ hj]
    exact List.getElem_mem _
  · rw [List.pairwise_iff_getElem]
    intro i j hi hj hij x hxi hxj
    obtain ⟨j₀, -, -, huniq⟩ := h6 x (List.mem_finRange x)
    have e1 : i = j₀ := huniq i (by rw [List.getD_eq_getElem _ _ hi]; exact hxi)
    have e2 : j = j₀ := huniq j (by rw [List.getD_eq_getElem _ _ hj]; exact hxj)
    omega
  · intro g hg
    obtain ⟨j, hjlen, hjg⟩ := List.mem_iff_getElem.mp hg
    rcases Nat.lt_or_ge j
        (group_states_by_energy_cutoff energies cutoff).length with hjl | hjr
    · obtain ⟨x, hx⟩ := cutoff_groups_seed energies cutoff hcut j hjl
      have hmem := h5 x (List.mem_finRange x) j hx
      rw [List.getD_eq_getElem _ _ hjlen, hjg] at hmem
      exact List.ne_nil_of_mem hmem
    · have hne := h4 j (by simpa using hjr) hjlen
      rw [List.getD_eq_getElem _ _ hjlen, hjg] at hne
      exact hne

/-- Witness for C4 (amended) on the three-state chain with energies
`0, 4/5, 8/5` and cutoff `1` — the configuration whose raw clusters
overlap. -/
theorem C4_energy_cutoff_partition_witness :
    (0 : ℚ) < 1 ∧
    ((∀ x : Fin 3, ∃ g ∈ from_spec_groups
        (group_states_by_energy_cutoff (fun n => (n.1 : ℚ) * 4 / 5) 1),
        x ∈ g) ∧
     (from_spec_groups (group_states_by_energy_cutoff
        (fun n : Fin 3 => (n.1 : ℚ) * 4 / 5) 1)).Pairwise
       (fun g₁ g₂ => ∀ x, x ∈ g₁ → x ∉ g₂) ∧
     (∀ g ∈ from_spec_groups (group_states_by_energy_cutoff
        (fun n : Fin 3 => (n.1 : ℚ) * 4 / 5) 1), g ≠ [])) :=
  ⟨by norm_num, C4_energy_cutoff_partition
    (fun n : Fin 3 => (n.1 : ℚ) * 4 / 5) 1 (by norm_num)⟩

/-- C1 (amended): with a cutoff at most `1`, if no state outside the
declared group has `|E_m - E0| < cutoff` then the resolvent is the
diagonal operator `1/(E_m - E0)` outside the group and exactly `0` on
every state of the group; otherwise `_get_Pi0` raises, naming the
offending state indices when at most `10` offend (only their count
otherwise) and reporting the mean and variance (the squared standard
deviation) of the vector `[E0] ++ zero-order energies of the offending
states` — not statistics of the near-zero denominators themselves — and
the engine propagates that error before producing any wavefunction
coefficient. -/
theorem C1_resolvent_degeneracy {N : ℕ} (e_vec_full : Vec N)
    (deg : Finset (Fin N)) (E0 cutoff : ℚ) (offenders : List (Fin N))
    (hcut : cutoff ≤ 1)
    (hoff : offenders = (List.finRange N).filter
      (fun m => decide (m ∉ deg) && decide (|e_vec_full m - E0| < cutoff))) :
    (offenders = [] →
      get_Pi0 e_vec_full deg E0 cutoff =
        .ok (fun m => if m ∈ deg then 0 else 1 / (e_vec_full m - E0))) ∧
    (offenders ≠ [] →
      get_Pi0 e_vec_full deg E0 cutoff = .error
        { subspace := deg
          namedStates := if offenders.length > 10 then none
            else some offenders
          count := offenders.length
          mean := listMean (E0 :: offenders.map e_vec_full)
          variance := listVar (E0 :: offenders.map e_vec_full) }) ∧
    (∀ (H0 : Mat N) (Hrest : List (OpMat N)) (order : ℕ) (n : Fin N)
      (degGroup : Option (Finset (Fin N))) (coArg inorm ig : Bool)
      (e : DegeneracyEncountered N),
      get_Pi0 (zero_order_energies H0) (degIndsOf degGroup n)
        (zero_order_energies H0 n) cutoff = .error e →
      apply_VPT_nondeg_equations H0 Hrest order n degGroup cutoff coArg
        inorm ig = .error (.degeneracyEncountered e)) := by
  have hzc : (List.finRange N).filter
      (fun m => decide (|if m ∈ deg then (1 : ℚ) else e_vec_full m - E0| <
        cutoff)) = offenders := by
    rw [hoff]
    refine List.filter_congr ?_
    intro m _
    by_cases hm : m ∈ deg
    · simp [hm, abs_one, not_lt.2 hcut]
    · simp [hm]
  refine ⟨?_, ?_, ?_⟩
  · intro hnil
    simp only [get_Pi0, hzc, hnil, List.length_nil]
    rw [if_neg (by omega)]
    congr 1
    funext m
    by_cases hm : m ∈ deg
    · simp [hm]
    · simp [hm]
  · intro hne
    simp only [get_Pi0, hzc]
    rw [if_pos (by have := List.length_pos.2 hne; omega)]
  · intro H0 Hrest order n degGroup coArg inorm ig e he
    exact apply_VPT_pi_error H0 Hrest order n degGroup cutoff coArg inorm
      ig e he

/-- Witness for C1 (amended) on two exactly degenerate states with the
group `{0}`: state `1` offends, and the reported mean is that of
`[E0, E_1] = [1, 1]`. -/
theorem C1_resolvent_degeneracy_witness :
    (1 / 100 : ℚ) ≤ 1 ∧
    ([1] : List (Fin 2)) = (List.finRange 2).filter
      (fun m => decide (m ∉ ({0} : Finset (Fin 2))) &&
        decide (|(fun _ : Fin 2 => (1 : ℚ)) m - 1| < 1 / 100)) ∧
    ((([1] : List (Fin 2)) = [] →
      get_Pi0 (fun _ : Fin 2 => (1 : ℚ)) {0} 1 (1 / 100) =
        .ok (fun m => if m ∈ ({0} : Finset (Fin 2)) then 0
          else 1 / ((fun _ : Fin 2 => (1 : ℚ)) m - 1))) ∧
    (([1] : List (Fin 2)) ≠ [] →
      get_Pi0 (fun _ : Fin 2 => (1 : ℚ)) {0} 1 (1 / 100) = .error
        { subspace := {0}
          namedStates := if ([1] : List (Fin 2)).length > 10 then none
            else some [1]
          count := ([1] : List (Fin 2)).length
          mean := listMean (1 :: ([1] : List (Fin 2)).map
            (fun _ : Fin 2 => (1 : ℚ)))
          variance := listVar (1 :: ([1] : List (Fin 2)).map
            (fun _ : Fin 2 => (1 : ℚ))) }) ∧
    (∀ (H0 : Mat 2) (Hrest : List (OpMat 2)) (order : ℕ) (n : Fin 2)
      (degGroup : Option (Finset (Fin 2))) (coArg inorm ig : Bool)
      (e : DegeneracyEncountered 2),
      get_Pi0 (zero_order_energies H0) (degIndsOf degGroup n)
        (zero_order_energies H0 n) (1 / 100) = .error e →
      apply_VPT_nondeg_equations H0 Hrest order n degGroup (1 / 100) coArg
        inorm ig = .error (.degeneracyEncountered e))) :=
  ⟨by norm_num, by decide,
    C1_resolvent_degeneracy (fun _ : Fin 2 => (1 : ℚ)) {0} 1 (1 / 100) [1]
      (by norm_num) (by decide)⟩

/-- C9: serializing a `PerturbationTheoryCorrections` container (`savez`)
and deserializing it (`loadz`) is a round trip: the reconstructed container
has identical per-order energies, overlaps (stored inside the wavefunction
coefficient rows), and wavefunction coefficients, and the degenerate-state
groups, degenerate transformation, and degenerate energies are preserved
exactly when present. -/
theorem C9_savez_loadz_roundtrip (c : PerturbationTheoryCorrections) :
    PerturbationTheoryCorrections.loadz c.savez = c := rfl

/-- C10: indexing the `PastIndexableTuple` of perturbation representations
at or past its length returns the scalar `0` rather than raising, and that
scalar is short-circuited by the zero-aware dot product `_safe_dot`; the
solver-side helpers `takeDiag`/`takeRowDot`/`hamApply` all treat the absent
order as the zero operator. -/
theorem C10_past_indexable_tuple {N : ℕ} (t : List (Val N))
    (H : List (OpMat N)) (i : ℕ) (ht : t.length ≤ i) (hH : H.length ≤ i)
    (n : Fin N) (v : Vec N) :
    pastIndexableGet t i = .sc 0 ∧
    (∀ b : Val N, safe_dot (pastIndexableGet t i) b = some (.sc 0)) ∧
    (∀ a : Val N, safe_dot a (.sc 0) = some (.sc 0)) ∧
    pastIndexGet H i = none ∧
    takeDiag (pastIndexGet H i) n = 0 ∧
    takeRowDot (pastIndexGet H i) n v = 0 ∧
    hamApply (pastIndexGet H i) v = fun _ => 0 := by
  have h1 : pastIndexableGet t i = .sc 0 := by
    unfold pastIndexableGet
    rw [dif_neg (by omega)]
  have h2 : pastIndexGet H i = none := by
    unfold pastIndexGet
    rw [dif_neg (by omega)]
  refine ⟨h1, ?_, ?_, h2, ?_, ?_, ?_⟩
  · intro b
    rw [h1]
    simp [safe_dot, Val.isZeroScalar]
  · intro a
    unfold safe_dot
    have : Val.isZeroScalar (N := N) (.sc 0) = true := by
      simp [Val.isZeroScalar]
    rw [this]
    simp
  · rw [h2]; rfl
  · rw [h2]; rfl
  · rw [h2]; rfl

/-- Witness for C10 at the concrete input `t = []`, `H = []`, `i = 0`. -/
theorem C10_past_indexable_tuple_witness :
    ([] : List (Val 1)).length ≤ 0 ∧ ([] : List (OpMat 1)).length ≤ 0 ∧
    (pastIndexableGet ([] : List (Val 1)) 0 = .sc 0 ∧
      (∀ b : Val 1, safe_dot (pastIndexableGet ([] : List (Val 1)) 0) b =
        some (.sc 0)) ∧
      (∀ a : Val 1, safe_dot a (.sc 0) = some (.sc 0)) ∧
      pastIndexGet ([] : List (OpMat 1)) 0 = none ∧
      takeDiag (pastIndexGet ([] : List (OpMat 1)) 0) 0 = 0 ∧
      takeRowDot (pastIndexGet ([] : List (OpMat 1)) 0) 0 (fun _ => 0) = 0 ∧
      hamApply (pastIndexGet ([] : List (OpMat 1)) 0) (fun _ => 0) =
        fun _ => 0) :=
  ⟨Nat.le_refl 0, Nat.le_refl 0,
    C10_past_indexable_tuple [] [] 0 (Nat.le_refl 0) (Nat.le_refl 0) 0
      (fun _ => 0)⟩

/-- C8: for both checkpoint-backed caches, a miss on lookup (`KeyError`,
caught) builds the data from scratch, a hit returns the cached data, and
the outcome never depends on whether the subsequent store persisted
(per the §6 interface contract the store's failure is absorbed); neither
condition surfaces as an error — both functions are total. -/
theorem C8_cache_miss_and_store_recovery {R C : Type}
    (st : CheckpointState R C) (build : R) (buildC : C) :
    (get_VPT_representations st true build).1 =
      (match st.representations with | some h => h | none => build) ∧
    (get_VPT_representations { st with persistOK := false } true build).1 =
      (get_VPT_representations { st with persistOK := true } true build).1 ∧
    (load_state_spaces st true buildC).1 =
      (match st.coupledStates with | some h => h | none => buildC) ∧
    (load_state_spaces { st with persistOK := false } true buildC).1 =
      (load_state_spaces { st with persistOK := true } true buildC).1 := by
  obtain ⟨reps, cs, p⟩ := st
  refine ⟨?_, ?_, ?_, ?_⟩ <;>
    cases reps <;> cases cs <;>
      simp [get_VPT_representations, load_state_spaces, ckptGetReps,
        ckptGetCoupled, ckptSetReps, ckptSetCoupled]

/-- C6: on the trivial single-mode oscillator (diagonal `H0` with energies
`1/2, 3/2, 5/2, 7/2`, `H1 = H2 = 0` as bare scalars, order 2, target state
0) the engine returns energy corrections `[1/2, 0, 0]`, overlaps
`[1, 0, 0]`, the order-0 wavefunction is the unit vector at 0, the order-1
and order-2 corrections are identically zero, and the accumulated
wavefunction through every order is the unit vector at state 0. -/
theorem C6_trivial_oscillator :
    (apply_VPT_nondeg_equations (N := 4)
        (fun i j => if i = j then (i.1 : ℚ) + 1 / 2 else 0) [none, none]
        2 0 none (1 / 10 ^ 14) true false false).toOption.map
      PTRun.energies = some [1 / 2, 0, 0] ∧
    (apply_VPT_nondeg_equations (N := 4)
        (fun i j => if i = j then (i.1 : ℚ) + 1 / 2 else 0) [none, none]
        2 0 none (1 / 10 ^ 14) true false false).toOption.map
      PTRun.overlaps = some [1, 0, 0] ∧
    (∀ j : Fin 3, ∀ m : Fin 4,
      (apply_VPT_nondeg_equations (N := 4)
          (fun i j' => if i = j' then (i.1 : ℚ) + 1 / 2 else 0) [none, none]
          2 0 none (1 / 10 ^ 14) true false false).toOption.map
        (fun st => st.corrs.getD j.1 (fun _ => 0) m) =
      some (if j.1 = 0 ∧ m = 0 then 1 else 0)) ∧
    (∀ k : Fin 3, ∀ m : Fin 4,
      (apply_VPT_nondeg_equations (N := 4)
          (fun i j' => if i = j' then (i.1 : ℚ) + 1 / 2 else 0) [none, none]
          2 0 none (1 / 10 ^ 14) true false false).toOption.map
        (fun st => ∑ i ∈ Finset.range (k.1 + 1),
          st.corrs.getD i (fun _ => 0) m) =
      some (if m = 0 then 1 else 0)) := by
  refine ⟨by decide, by decide, by decide, by decide⟩

/-- C1 counterexample: with two exactly degenerate states (zero-order
energies both `1`), target group `{0}`, `E0 = 1` and cutoff `1/100`,
`_get_Pi0` raises with a reported mean of `1` — the average of
`bad_vec = [E0, E_1]`, the zero-order energies — whereas the mean of the
near-zero denominators (`E_1 - E0 = 0`) is `0`; the error does not report
statistics of the denominators. -/
theorem C1_counterexample :
    get_Pi0 (N := 2) (fun _ => 1) {0} 1 (1 / 100) =
      .error { subspace := {0}, namedStates := some [1], count := 1,
               mean := 1, variance := 0 } ∧
    listMean [(1 : ℚ) - 1] = 0 ∧
    (1 : ℚ) ≠ listMean [(1 : ℚ) - 1] := by
  refine ⟨by decide, by decide, by decide⟩

/-- C2 counterexample: the in-group coefficient guard of
`apply_VPT_nondeg_equations` is `(should_be_zero > 0).any()`, so a nonzero
but strictly negative coefficient on a degenerate partner does not trigger
the fatal error, contradicting "any nonzero such coefficient causes the
engine to raise". -/
theorem C2_counterexample :
    overlapCheckAny ({0} : Finset (Fin 1)) (fun _ => -1) = false ∧
    (fun _ : Fin 1 => (-1 : ℚ)) 0 ≠ 0 := by
  refine ⟨by decide, by decide⟩

/-- C4 counterexample: with zero-order energies `0, 4/5, 8/5` and cutoff
`1`, the energy-cutoff clustering gathers for state 2 all states within the
cutoff regardless of prior assignment, producing the overlapping groups
`{0, 1}` and `{1, 2}` — the raw clustering is not pairwise disjoint (state
1 belongs to both groups). -/
theorem C4_counterexample :
    group_states_by_energy_cutoff (S := 3) (fun n => (n.1 : ℚ) * 4 / 5) 1 =
      [{0, 1}, {1, 2}] ∧
    (1 : Fin 3) ∈ ({0, 1} : Finset (Fin 3)) ∧
    (1 : Fin 3) ∈ ({1, 2} : Finset (Fin 3)) := by
  refine ⟨by decide, by decide, by decide⟩

end Psience
